import Mathlib

/-!
Verification of the smartphone reordering simulation (Lab_Agent.py).

The Python program is embedded shallowly:
- floats become exact rationals; stock quantities and order sizes are integers;
- the hidden random generator becomes explicit per-step inputs: a uniform
  draw u for the demand sampler and a noise value g for the Gaussian price
  perturbation (the claims hold for every noise value, so g is unconstrained);
- the sampler's RuntimeError path becomes the Option value none, which is
  propagated by the environment step and the run loop.
-/

namespace LabAgent

/-- Truncation toward zero on rationals, the behaviour of the Python
builtin int() applied to a float: the floor for a non-negative argument
and the negated floor of the negation, that is the ceiling, below zero. -/
def py_int (q : ℚ) : ℤ := if 0 ≤ q then ⌊q⌋ else -⌊-q⌋

/-- Embedding of select_from_dist: walk the distribution entries in order
with the uniformly drawn value u (ranreal in the source); return the first
item whose probability exceeds the running remainder, subtracting each
passed probability; none models the RuntimeError raised when the entries
are exhausted. -/
def select_from_dist {α : Type} : List (α × ℚ) → ℚ → Option α
  | [], _ => none
  | (item, prob) :: rest, u => if u < prob then some item else select_from_dist rest (u - prob)

/-- Specification-side description of the sampler: the first outcome, in
iteration order, whose cumulative probability strictly exceeds the drawn
value u; c is the cumulative probability of the entries already passed. -/
def firstCumExceed {α : Type} : List (α × ℚ) → ℚ → ℚ → Option α
  | [], _, _ => none
  | (item, prob) :: rest, c, u => if u < c + prob then some item else firstCumExceed rest (c + prob) u

/-- Sum of the probabilities of the first k entries of a distribution. -/
def takeSum {α : Type} : List (α × ℚ) → ℕ → ℚ
  | _, 0 => 0
  | [], _ + 1 => 0
  | (_, prob) :: rest, k + 1 => prob + takeSum rest k

/-- Sum of all probabilities of a distribution. -/
def totalProb {α : Type} : List (α × ℚ) → ℚ
  | [] => 0
  | (_, prob) :: rest => prob + totalProb rest

/-- The agent's observation of the environment: current price and stock. -/
structure Percept where
  price : ℚ
  stock : ℤ
  deriving DecidableEq

/-- The agent's decision: how many units to buy this step. -/
structure Action where
  buy : ℤ
  deriving DecidableEq

/-- State of SmartphoneEnvironment: time, stock, price and the two
append-only histories. -/
structure EnvState where
  time : ℕ
  stock : ℤ
  price : ℚ
  stock_history : List ℤ
  price_history : List ℚ
  deriving DecidableEq

/-- State of SmartphoneAgent: running average price, buying decisions and
total expenditure. -/
structure AgentState where
  average_price : ℚ
  buy_history : List ℤ
  total_spent : ℚ
  deriving DecidableEq

/-- The class attribute SmartphoneEnvironment.price_delta. -/
def price_delta : List ℚ := [10, -80, 20, -60, 5, 50, -100, 30, -20, 0]

/-- The fixed daily-sales distribution passed to select_from_dist in
SmartphoneEnvironment.do_action, in the dict's insertion order. -/
def demand_dist : List (ℤ × ℚ) := [(3, 2/10), (5, 3/10), (7, 3/10), (10, 2/10)]

/-- Initial environment state: time 0, stock 50, price 600, histories
seeded with the initial stock and price. -/
def env0 : EnvState :=
  { time := 0, stock := 50, price := 600, stock_history := [50], price_history := [600] }

/-- SmartphoneEnvironment.initial_percept. -/
def initial_percept (e : EnvState) : Percept := { price := e.price, stock := e.stock }

/-- The clamped stock update of do_action: max(0, stock + bought - daily_sales). -/
def next_stock (e : EnvState) (bought daily_sales : ℤ) : ℤ :=
  max 0 (e.stock + bought - daily_sales)

/-- The clamped price update of do_action: the cyclic delta indexed by the
incremented time plus the Gaussian noise g, clamped below at 100. -/
def next_price (e : EnvState) (g : ℚ) : ℚ :=
  max 100 (e.price + price_delta.getD ((e.time + 1) % price_delta.length) 0 + g)

/-- Embedding of SmartphoneEnvironment.do_action. u is the uniform draw
consumed by select_from_dist; g is the Gaussian noise added to the price.
Returns none when the demand sampler raises. -/
def do_action (e : EnvState) (a : Action) (u g : ℚ) : Option (EnvState × Percept) :=
  match select_from_dist demand_dist u with
  | none => none
  | some daily_sales =>
      some ({ time := e.time + 1,
              stock := next_stock e a.buy daily_sales,
              price := next_price e g,
              stock_history := e.stock_history ++ [next_stock e a.buy daily_sales],
              price_history := e.price_history ++ [next_price e g] },
            { price := next_price e g, stock := next_stock e a.buy daily_sales })

/-- Embedding of PriceMonitoringController.monitor: true iff the current
price is below (1 - discount_threshold) times the agent's average price. -/
def monitor_price (average_price discount_threshold : ℚ) (percept : Percept) : Bool :=
  decide (percept.price < (1 - discount_threshold) * average_price)

/-- Embedding of InventoryMonitoringController.monitor: true iff the
percept's stock is strictly below the threshold (default 10). -/
def monitor_inventory (percept : Percept) (threshold : ℤ) : Bool :=
  decide (percept.stock < threshold)

/-- Embedding of OrderingController.order. average_price is the agent
field read through the back-reference; the two monitor results are passed
in precomputed. int() is truncation toward zero. -/
def order (average_price : ℚ) (percept : Percept) (price_discount low_stock : Bool) : ℤ :=
  if price_discount && !low_stock then
    py_int (15 * (1 + (average_price - percept.price) / average_price))
  else if low_stock then 10
  else 0

/-- The exponential-smoothing update performed first in select_action:
average_price += (current_price - average_price) * 0.1. -/
def updated_avg (a : AgentState) (percept : Percept) : ℚ :=
  a.average_price + (percept.price - a.average_price) * (1/10)

/-- The quantity select_action orders: the ordering controller applied to
the updated average, with the price monitor (threshold 0.2) evaluated at
the updated average and the inventory monitor (threshold 10). -/
def tobuy (a : AgentState) (percept : Percept) : ℤ :=
  order (updated_avg a percept) percept
    (monitor_price (updated_avg a percept) (1/5) percept)
    (monitor_inventory percept 10)

/-- Embedding of SmartphoneAgent.select_action: update the average price,
evaluate both monitors, order, extend the bookkeeping, and return the
action. -/
def select_action (a : AgentState) (percept : Percept) : AgentState × Action :=
  ({ average_price := updated_avg a percept,
     buy_history := a.buy_history ++ [tobuy a percept],
     total_spent := a.total_spent + (tobuy a percept : ℚ) * percept.price },
   { buy := tobuy a percept })

/-- Initial agent state of SmartphoneAgent: average price 600, no
decisions, nothing spent. -/
def agent0 : AgentState := { average_price := 600, buy_history := [], total_spent := 0 }

/-- Combined simulation state: the agent, the environment, and the percept
held by the Simulation object between steps. -/
structure SimState where
  agent : AgentState
  env : EnvState
  percept : Percept
  deriving DecidableEq

/-- One iteration of the Simulation.run loop: the agent selects an action
on the held percept, then the environment performs it; r bundles the two
random inputs consumed by the step. -/
def step (s : SimState) (r : ℚ × ℚ) : Option SimState :=
  match do_action s.env (select_action s.agent s.percept).2 r.1 r.2 with
  | none => none
  | some ep => some { agent := (select_action s.agent s.percept).1, env := ep.1, percept := ep.2 }

/-- Embedding of Simulation.run: fold the step over the list of per-step
random inputs; the number of steps is the length of the list. -/
def run : SimState → List (ℚ × ℚ) → Option SimState
  | s, [] => some s
  | s, r :: rs =>
      match step s r with
      | none => none
      | some t => run t rs

/-- The initial simulation state built by the program entry point. -/
def sim0 : SimState := { agent := agent0, env := env0, percept := initial_percept env0 }

/-- Last element of a price history, 0 for the empty list. -/
def lastPrice : List ℚ → ℚ
  | [] => 0
  | [q] => q
  | _ :: q :: qs => lastPrice (q :: qs)

/-- Dot product of a buying history with a price history, truncated to the
shorter of the two: the total expenditure reconstructed from histories. -/
def spentOf : List ℤ → List ℚ → ℚ
  | b :: bs, q :: qs => (b : ℚ) * q + spentOf bs qs
  | _, _ => 0

/-- A fixed pair of random inputs used to exercise the theorems on a
concrete one-step run: uniform draw one half, noise zero. -/
def rEx : ℚ × ℚ := (1/2, 0)

/-- The concrete simulation state reached after one step from the initial
state with inputs rEx: the uniform draw one half selects daily sales 7, so
the stock drops to 43; the cyclic delta at time 1 is -80, so the price
drops to 520; no discount and no low stock is detected, so the agent buys
0 and spends nothing, and its average stays 600. -/
def sEx : SimState :=
  { agent := { average_price := 600, buy_history := [0], total_spent := 0 },
    env := { time := 1, stock := 43, price := 520,
             stock_history := [50, 43], price_history := [600, 520] },
    percept := { price := 520, stock := 43 } }

/-- The invariant tying a simulation state's components together: history
lengths, last-price coherence of the held percept, expenditure
reconstruction, the clamping bounds, and the average-price floor. -/
structure Inv (s : SimState) : Prop where
  ph_len : s.env.price_history.length = s.agent.buy_history.length + 1
  sh_len : s.env.stock_history.length = s.agent.buy_history.length + 1
  pp_last : s.percept.price = lastPrice s.env.price_history
  spent : s.agent.total_spent = spentOf s.agent.buy_history s.env.price_history
  sh_nonneg : ∀ x ∈ s.env.stock_history, (0:ℤ) ≤ x
  ph_floor : ∀ q ∈ s.env.price_history, (100:ℚ) ≤ q
  avg_floor : (100:ℚ) ≤ s.agent.average_price
  pp_floor : (100:ℚ) ≤ s.percept.price

/-- C4: with price_discount and low_stock simultaneously true the ordering
controller returns the fixed restock quantity 10, for every percept and
reference average; in particular at price 500, stock 5, reference 600. -/
theorem order_low_stock_precedence (avg : ℚ) (p : Percept) :
    order avg p true true = 10 ∧ order 600 ⟨500, 5⟩ true true = 10 := by
  constructor <;> rfl

/-- C8: the inventory monitor uses a strict inequality: it returns true
iff stock is strictly below the threshold; with threshold 10 it is false
at stock 10 and true at stock 9. -/
theorem monitor_inventory_strict (p : Percept) (t : ℤ) (q : ℚ) :
    (monitor_inventory p t = true ↔ p.stock < t) ∧
    monitor_inventory ⟨q, 10⟩ 10 = false ∧
    monitor_inventory ⟨q, 9⟩ 10 = true := by
  refine ⟨?_, rfl, rfl⟩
  simp [monitor_inventory]

/-- C5 counterexample: invoked with price_discount true, low_stock false
and positive reference 600, at percept price 1500 the controller returns
int(15 * (1 - 3/2)) = int(-15/2) = -7, while the floor is -8: the claim's
floor formula is wrong on this input. -/
theorem order_discount_floor_cex :
    order 600 ⟨1500, 50⟩ true false ≠ ⌊(15 : ℚ) * (1 + ((600 : ℚ) - 1500) / 600)⌋ := by
  have h1 : order 600 ⟨1500, 50⟩ true false = -7 := by
    show py_int (15 * (1 + ((600 : ℚ) - 1500) / 600)) = -7
    have hq : (15 : ℚ) * (1 + ((600 : ℚ) - 1500) / 600) = -15/2 := by norm_num
    unfold py_int
    rw [hq, if_neg (by norm_num : ¬ (0:ℚ) ≤ -15/2)]
    norm_num
  have h2 : ⌊(15 : ℚ) * (1 + ((600 : ℚ) - 1500) / 600)⌋ = -8 := by norm_num
  rw [h1, h2]
  decide

/-- C5 amended: with price_discount true, low_stock false and a positive
reference average, the controller returns the truncation toward zero of
15 * (1 + discount_ratio) — Python's int(), which agrees with floor
exactly when the scaled quantity is non-negative, in particular whenever
the percept price is at most twice the reference; at price 450 and
reference 600 it returns 18. -/
theorem order_discount_trunc (avg : ℚ) (p : Percept) (h : 0 < avg) :
    order avg p true false = py_int (15 * (1 + (avg - p.price) / avg)) ∧
    (p.price ≤ 2 * avg →
      order avg p true false = ⌊(15 : ℚ) * (1 + (avg - p.price) / avg)⌋) ∧
    order 600 ⟨450, 5⟩ true false = 18 := by
  refine ⟨rfl, ?_, ?_⟩
  · intro hp
    have hratio : (0:ℚ) ≤ 15 * (1 + (avg - p.price) / avg) := by
      have h1 : (-1:ℚ) ≤ (avg - p.price) / avg := by
        rw [le_div_iff₀ h]
        linarith
      linarith
    show py_int (15 * (1 + (avg - p.price) / avg)) = _
    unfold py_int
    rw [if_pos hratio]
  · show py_int (15 * (1 + ((600:ℚ) - 450) / 600)) = 18
    have hq : (15 : ℚ) * (1 + ((600:ℚ) - 450) / 600) = 75/4 := by norm_num
    unfold py_int
    rw [hq, if_pos (by norm_num : (0:ℚ) ≤ 75/4)]
    norm_num

/-- C5 witness: the amended theorem applied at reference 600 and percept
price 450, where the hypothesis 0 < 600 holds and the order is 18. -/
theorem order_discount_trunc_witness :
    (0:ℚ) < 600 ∧ order 600 ⟨450, 5⟩ true false = 18 :=
  ⟨by norm_num, (order_discount_trunc 600 ⟨450, 5⟩ (by norm_num)).2.2⟩

/-- C6: select_action first updates the average price by exponential
smoothing with factor 0.1, and the price-discount flag consumed by the
ordering decision is evaluated against that updated average (threshold
0.2), not the pre-update one. -/
theorem select_action_updates_avg_first (a : AgentState) (p : Percept) :
    (select_action a p).1.average_price
        = a.average_price + (p.price - a.average_price) * (1/10) ∧
    (select_action a p).2.buy
        = order ((select_action a p).1.average_price) p
            (decide (p.price < (1 - 1/5) * (select_action a p).1.average_price))
            (monitor_inventory p 10) := by
  exact ⟨rfl, rfl⟩

/-- The truncated probability sum of the empty distribution is zero for
every prefix length. -/
theorem takeSum_nil {α : Type} (k : ℕ) : takeSum ([] : List (α × ℚ)) k = 0 := by
  cases k <;> rfl

/-- The truncated probability sum of length zero is zero for every
distribution. -/
theorem takeSum_zero {α : Type} (l : List (α × ℚ)) : takeSum l 0 = 0 := by
  cases l <;> rfl

/-- Shifting the drawn value down by the cumulative probability already
consumed turns the source's subtract-as-you-go walk into the cumulative
comparison of the specification. -/
theorem select_shift {α : Type} :
    ∀ (l : List (α × ℚ)) (c u : ℚ), select_from_dist l (u - c) = firstCumExceed l c u
  | [], _, _ => rfl
  | (item, prob) :: rest, c, u => by
    show (if u - c < prob then some item else select_from_dist rest (u - c - prob))
        = (if u < c + prob then some item else firstCumExceed rest (c + prob) u)
    have hiff : u - c < prob ↔ u < c + prob := sub_lt_iff_lt_add'
    by_cases hc : u < c + prob
    · rw [if_pos (hiff.mpr hc), if_pos hc]
    · rw [if_neg (fun hh => hc (hiff.mp hh)), if_neg hc]
      have harg : u - c - prob = u - (c + prob) := by ring
      rw [harg]
      exact select_shift rest (c + prob) u

/-- The sampler exhausts its entries exactly when no truncated sum of the
probabilities exceeds the drawn value. -/
theorem select_none_iff {α : Type} :
    ∀ (l : List (α × ℚ)) (u : ℚ), 0 ≤ u →
      (select_from_dist l u = none ↔ ∀ k, takeSum l k ≤ u)
  | [], u, h0 => by
    constructor
    · intro _ k
      rw [takeSum_nil]
      exact h0
    · intro _
      rfl
  | (item, prob) :: rest, u, h0 => by
    by_cases hup : u < prob
    · constructor
      · intro hnone
        exact absurd hnone (by simp [select_from_dist, hup])
      · intro hall
        have h1 := hall 1
        have h2 : takeSum ((item, prob) :: rest) 1 = prob + takeSum rest 0 := rfl
        rw [h2, takeSum_zero] at h1
        linarith
    · have hpu : prob ≤ u := not_lt.mp hup
      have h0' : 0 ≤ u - prob := by linarith
      have ih := select_none_iff rest (u - prob) h0'
      have hred : select_from_dist ((item, prob) :: rest) u = select_from_dist rest (u - prob) := by
        show (if u < prob then some item else select_from_dist rest (u - prob)) = _
        rw [if_neg hup]
      rw [hred, ih]
      constructor
      · intro hall k
        cases k with
        | zero => exact le_of_eq_of_le (by rfl) h0
        | succ k =>
          have := hall k
          show takeSum ((item, prob) :: rest) (k + 1) ≤ u
          have h2 : takeSum ((item, prob) :: rest) (k + 1) = prob + takeSum rest k := rfl
          rw [h2]
          linarith
      · intro hall k
        have := hall (k + 1)
        have h2 : takeSum ((item, prob) :: rest) (k + 1) = prob + takeSum rest k := rfl
        rw [h2] at this
        linarith

/-- Taking as many entries as the distribution has sums all of its
probabilities. -/
theorem takeSum_length {α : Type} :
    ∀ (l : List (α × ℚ)), takeSum l l.length = totalProb l
  | [] => rfl
  | (item, prob) :: rest => by
    show prob + takeSum rest rest.length = prob + totalProb rest
    rw [takeSum_length rest]

/-- C7: for every distribution with non-negative probabilities and every
drawn value u in the interval from 0 inclusive to 1 exclusive, the sampler
returns the first outcome in iteration order whose cumulative probability
strictly exceeds u; it exhausts the entries exactly when no truncated
probability sum exceeds u, which forces the total to be below 1; and when
the probabilities sum to at least 1 it always returns an outcome. -/
theorem select_from_dist_contract {α : Type} (l : List (α × ℚ)) (u : ℚ)
    (hp : ∀ x ∈ l, 0 ≤ x.2) (h0 : 0 ≤ u) (h1 : u < 1) :
    select_from_dist l u = firstCumExceed l 0 u ∧
    (select_from_dist l u = none ↔ ∀ k, takeSum l k ≤ u) ∧
    (select_from_dist l u = none → totalProb l < 1) ∧
    (1 ≤ totalProb l → (select_from_dist l u).isSome = true) := by
  have hshift := select_shift l 0 u
  rw [sub_zero] at hshift
  have hB := select_none_iff l u h0
  have hC : select_from_dist l u = none → totalProb l < 1 := by
    intro hn
    have hlen := (hB.mp hn) l.length
    rw [takeSum_length] at hlen
    linarith
  refine ⟨hshift, hB, hC, ?_⟩
  intro htot
  cases hsel : select_from_dist l u with
  | none => exact absurd htot (not_le.mpr (hC hsel))
  | some a => rfl

/-- C7 witness: the contract applied to the program's own demand
distribution with drawn value one half, whose probabilities are
non-negative and sum to exactly 1, so the sampler returns an outcome. -/
theorem select_from_dist_contract_witness :
    (∀ x ∈ demand_dist, (0:ℚ) ≤ x.2) ∧ (0:ℚ) ≤ 1/2 ∧ (1/2 : ℚ) < 1 ∧
    (1:ℚ) ≤ totalProb demand_dist ∧
    (select_from_dist demand_dist (1/2)).isSome = true := by
  have hp : ∀ x ∈ demand_dist, (0:ℚ) ≤ x.2 := by
    intro x hx
    simp only [demand_dist, List.mem_cons, List.not_mem_nil, or_false] at hx
    rcases hx with h | h | h | h <;> rw [h] <;> norm_num
  have htot : (1:ℚ) ≤ totalProb demand_dist := by
    have : totalProb demand_dist = 2/10 + (3/10 + (3/10 + (2/10 + 0))) := rfl
    rw [this]
    norm_num
  exact ⟨hp, by norm_num, by norm_num, htot,
    (select_from_dist_contract demand_dist (1/2) hp (by norm_num) (by norm_num)).2.2.2 htot⟩

/-- Appending an element to a history makes it the last entry. -/
theorem lastPrice_concat : ∀ (l : List ℚ) (x : ℚ), lastPrice (l ++ [x]) = x
  | [], _ => rfl
  | [_], _ => rfl
  | _ :: q2 :: qs, x => by
    show lastPrice ((q2 :: qs) ++ [x]) = x
    exact lastPrice_concat (q2 :: qs) x

/-- The last entry of a non-empty history does not depend on the head
prepended to it. -/
theorem lastPrice_cons_cons (q q2 : ℚ) (qs : List ℚ) :
    lastPrice (q :: q2 :: qs) = lastPrice (q2 :: qs) := rfl

/-- Extending both histories by one entry adds the new purchase times the
previously last price to the reconstructed expenditure, provided the price
history was exactly one entry longer than the buying history. -/
theorem spentOf_concat :
    ∀ (bs : List ℤ) (qs : List ℚ) (x : ℤ) (y : ℚ), qs.length = bs.length + 1 →
      spentOf (bs ++ [x]) (qs ++ [y]) = spentOf bs qs + (x : ℚ) * lastPrice qs
  | [], qs, x, y, h => by
    match qs, h with
    | [q], _ =>
      show (x:ℚ) * q + spentOf [] [y] = spentOf [] [q] + (x:ℚ) * q
      show (x:ℚ) * q + 0 = 0 + (x:ℚ) * q
      ring
  | b :: bs, qs, x, y, h => by
    match qs, h with
    | q :: qs', h =>
      have h' : qs'.length = bs.length + 1 := by
        simpa using h
      have hne : qs' ≠ [] := by
        intro hh
        rw [hh] at h'
        simp at h'
      show (b:ℚ) * q + spentOf (bs ++ [x]) (qs' ++ [y])
          = (b:ℚ) * q + spentOf bs qs' + (x:ℚ) * lastPrice (q :: qs')
      rw [spentOf_concat bs qs' x y h']
      match qs', hne with
      | q2 :: qs2, _ =>
        rw [lastPrice_cons_cons]
        ring

/-- The reconstructed expenditure is the sum over decision indices of the
purchase at that index times the price snapshot at the same index, as long
as there are at least as many price entries as purchases. -/
theorem spentOf_eq_sum :
    ∀ (bs : List ℤ) (qs : List ℚ), bs.length ≤ qs.length →
      spentOf bs qs
        = ∑ i ∈ Finset.range bs.length, (bs.getD i 0 : ℚ) * qs.getD i 0
  | [], qs, _ => by
    have h0 : spentOf [] qs = 0 := by cases qs <;> rfl
    rw [h0]
    simp
  | b :: bs, qs, h => by
    match qs, h with
    | q :: qs', h =>
      have h' : bs.length ≤ qs'.length := by
        simpa using h
      show (b:ℚ) * q + spentOf bs qs' = _
      rw [spentOf_eq_sum bs qs' h', List.length_cons, Finset.sum_range_succ']
      simp only [List.getD_cons_succ, List.getD_cons_zero]
      rw [add_comm]

/-- A successful simulation step decomposes into a successful demand draw
and the pure state update it induces: the agent state from select_action
and the environment fields and percept from do_action. -/
theorem step_eq_some {s t : SimState} {r : ℚ × ℚ} (h : step s r = some t) :
    ∃ d : ℤ, select_from_dist demand_dist r.1 = some d ∧
      t = { agent := (select_action s.agent s.percept).1,
            env := { time := s.env.time + 1,
                     stock := next_stock s.env (tobuy s.agent s.percept) d,
                     price := next_price s.env r.2,
                     stock_history :=
                       s.env.stock_history ++ [next_stock s.env (tobuy s.agent s.percept) d],
                     price_history :=
                       s.env.price_history ++ [next_price s.env r.2] },
            percept := { price := next_price s.env r.2,
                         stock := next_stock s.env (tobuy s.agent s.percept) d } } := by
  unfold step do_action at h
  cases hd : select_from_dist demand_dist r.1 with
  | none =>
    rw [hd] at h
    exact Option.noConfusion h
  | some d =>
    rw [hd] at h
    refine ⟨d, rfl, ?_⟩
    have ht := Option.some.inj h
    exact ht.symm

/-- Each simulation step appends exactly one entry to the buying history
and to each of the two environment histories. -/
theorem step_lengths {s t : SimState} {r : ℚ × ℚ} (h : step s r = some t) :
    t.agent.buy_history.length = s.agent.buy_history.length + 1 ∧
    t.env.price_history.length = s.env.price_history.length + 1 ∧
    t.env.stock_history.length = s.env.stock_history.length + 1 := by
  obtain ⟨d, _, ht⟩ := step_eq_some h
  subst ht
  refine ⟨?_, ?_, ?_⟩ <;> simp [select_action]

/-- The simulation invariant is preserved by every successful step. -/
theorem step_inv {s t : SimState} {r : ℚ × ℚ} (hs : Inv s) (h : step s r = some t) : Inv t := by
  obtain ⟨d, _, ht⟩ := step_eq_some h
  subst ht
  refine ⟨?_, ?_, ?_, ?_, ?_, ?_, ?_, ?_⟩
  · simp [select_action, hs.ph_len]
  · simp [select_action, hs.sh_len]
  · show next_price s.env r.2 = lastPrice (s.env.price_history ++ [next_price s.env r.2])
    rw [lastPrice_concat]
  · show s.agent.total_spent + (tobuy s.agent s.percept : ℚ) * s.percept.price
        = spentOf (s.agent.buy_history ++ [tobuy s.agent s.percept])
            (s.env.price_history ++ [next_price s.env r.2])
    rw [spentOf_concat _ _ _ _ hs.ph_len, ← hs.pp_last, hs.spent]
  · intro x hx
    rcases List.mem_append.mp hx with hx | hx
    · exact hs.sh_nonneg x hx
    · rw [List.mem_singleton] at hx
      subst hx
      exact le_max_left 0 _
  · intro q hq
    rcases List.mem_append.mp hq with hq | hq
    · exact hs.ph_floor q hq
    · rw [List.mem_singleton] at hq
      subst hq
      exact le_max_left 100 _
  · show (100:ℚ) ≤ updated_avg s.agent s.percept
    have h7 := hs.avg_floor
    have h8 := hs.pp_floor
    unfold updated_avg
    linarith
  · exact le_max_left 100 _

/-- The initial simulation state satisfies the invariant. -/
theorem inv_sim0 : Inv sim0 := by
  refine ⟨rfl, rfl, rfl, rfl, ?_, ?_, ?_, ?_⟩
  · intro x hx
    have : x = 50 := by simpa [sim0, env0] using hx
    subst this
    decide
  · intro q hq
    have : q = 600 := by simpa [sim0, env0] using hq
    subst this
    norm_num
  · show (100:ℚ) ≤ 600
    norm_num
  · show (100:ℚ) ≤ 600
    norm_num

/-- The invariant is preserved along every successful run. -/
theorem run_some_inv (rs : List (ℚ × ℚ)) :
    ∀ (s s' : SimState), Inv s → run s rs = some s' → Inv s' := by
  induction rs with
  | nil =>
    intro s s' hs h
    have : s = s' := Option.some.inj h
    exact this ▸ hs
  | cons r rs ih =>
    intro s s' hs h
    unfold run at h
    cases hst : step s r with
    | none =>
      rw [hst] at h
      exact Option.noConfusion h
    | some t =>
      rw [hst] at h
      exact ih t s' (step_inv hs hst) h

/-- A successful run of n steps grows each history by exactly n entries. -/
theorem run_some_lengths (rs : List (ℚ × ℚ)) :
    ∀ (s s' : SimState), run s rs = some s' →
      s'.agent.buy_history.length = s.agent.buy_history.length + rs.length ∧
      s'.env.price_history.length = s.env.price_history.length + rs.length ∧
      s'.env.stock_history.length = s.env.stock_history.length + rs.length := by
  induction rs with
  | nil =>
    intro s s' h
    have : s = s' := Option.some.inj h
    subst this
    simp
  | cons r rs ih =>
    intro s s' h
    unfold run at h
    cases hst : step s r with
    | none =>
      rw [hst] at h
      exact Option.noConfusion h
    | some t =>
      rw [hst] at h
      obtain ⟨h1, h2, h3⟩ := ih t s' h
      obtain ⟨g1, g2, g3⟩ := step_lengths hst
      refine ⟨?_, ?_, ?_⟩ <;> simp only [List.length_cons] <;> omega

/-- On the drawn value one half, the demand sampler walks past the
probabilities of outcomes 3 and 5 and selects 7. -/
theorem select_demand_ex : select_from_dist demand_dist (1/2 : ℚ) = some 7 := by
  norm_num [select_from_dist, demand_dist]

/-- On the initial percept the agent detects neither a discount nor low
stock and orders nothing. -/
theorem tobuy_ex : tobuy sim0.agent sim0.percept = 0 := by
  norm_num [tobuy, updated_avg, monitor_price, monitor_inventory, order,
    sim0, agent0, env0, initial_percept]

/-- Evaluating one step from the initial state with inputs rEx yields the
concrete state sEx. -/
theorem step_ex : step sim0 rEx = some sEx := by
  norm_num [step, do_action, select_action, tobuy, updated_avg, monitor_price,
    monitor_inventory, order, select_from_dist, demand_dist, price_delta,
    next_stock, next_price, sim0, agent0, env0, initial_percept, rEx, sEx, max_def]

/-- A run whose first step succeeds continues as a run from the reached
state on the remaining inputs. -/
theorem run_cons_some {s t : SimState} {r : ℚ × ℚ} (rs : List (ℚ × ℚ))
    (h : step s r = some t) : run s (r :: rs) = run t rs := by
  show (match step s r with | none => none | some u => run u rs) = run t rs
  rw [h]

/-- The one-step run from the initial state with inputs rEx succeeds and
reaches sEx. -/
theorem run_ex : run sim0 [rEx] = some sEx := by
  rw [run_cons_some [] step_ex]
  rfl

/-- C1: after any successful run, the agent's total expenditure equals the
sum over decision indices i of the quantity bought at step i times the
price snapshot at index i of the price history, the percept price current
when the decision was made. -/
theorem run_total_spent_eq_sum (rs : List (ℚ × ℚ)) (s' : SimState)
    (h : run sim0 rs = some s') :
    s'.agent.total_spent
      = ∑ i ∈ Finset.range rs.length,
          (s'.agent.buy_history.getD i 0 : ℚ) * s'.env.price_history.getD i 0 := by
  have hinv := run_some_inv rs sim0 s' inv_sim0 h
  have hlen := (run_some_lengths rs sim0 s' h).1
  have hbl : s'.agent.buy_history.length = rs.length := by
    simpa [sim0, agent0] using hlen
  have hle : s'.agent.buy_history.length ≤ s'.env.price_history.length := by
    rw [hinv.ph_len]
    omega
  rw [hinv.spent, spentOf_eq_sum _ _ hle, hbl]

/-- C1 witness: the expenditure identity evaluated on the concrete
one-step run reaching sEx. -/
theorem run_total_spent_eq_sum_witness :
    run sim0 [rEx] = some sEx ∧
    sEx.agent.total_spent
      = ∑ i ∈ Finset.range 1,
          (sEx.agent.buy_history.getD i 0 : ℚ) * sEx.env.price_history.getD i 0 :=
  ⟨run_ex, run_total_spent_eq_sum [rEx] sEx run_ex⟩

/-- C2: after a successful run of n steps from the initial state the
buying history has n entries and both environment histories have n + 1;
each individual step appends exactly one entry to each of the three
histories, so no history ever shrinks, and the one-more-snapshot invariant
relating the history lengths is preserved by every step. -/
theorem run_history_lengths (rs : List (ℚ × ℚ)) (s' : SimState)
    (h : run sim0 rs = some s')
    (s t : SimState) (r : ℚ × ℚ) (hst : step s r = some t) :
    (s'.agent.buy_history.length = rs.length ∧
     s'.env.price_history.length = rs.length + 1 ∧
     s'.env.stock_history.length = rs.length + 1) ∧
    (t.agent.buy_history.length = s.agent.buy_history.length + 1 ∧
     t.env.price_history.length = s.env.price_history.length + 1 ∧
     t.env.stock_history.length = s.env.stock_history.length + 1) ∧
    (s.env.price_history.length = s.agent.buy_history.length + 1 ∧
     s.env.stock_history.length = s.agent.buy_history.length + 1 →
     t.env.price_history.length = t.agent.buy_history.length + 1 ∧
     t.env.stock_history.length = t.agent.buy_history.length + 1) := by
  obtain ⟨h1, h2, h3⟩ := run_some_lengths rs sim0 s' h
  obtain ⟨g1, g2, g3⟩ := step_lengths hst
  simp only [sim0, agent0, env0, List.length_nil, List.length_cons] at h1 h2 h3
  refine ⟨⟨?_, ?_, ?_⟩, ⟨g1, g2, g3⟩, ?_⟩
  · omega
  · omega
  · omega
  · rintro ⟨i1, i2⟩
    constructor <;> omega

/-- C2 witness: the length statements evaluated on the concrete one-step
run and the concrete step it consists of. -/
theorem run_history_lengths_witness :
    run sim0 [rEx] = some sEx ∧ step sim0 rEx = some sEx ∧
    sEx.agent.buy_history.length = 1 ∧
    sEx.env.price_history.length = 2 ∧
    sEx.env.stock_history.length = 2 := by
  have H := run_history_lengths [rEx] sEx run_ex sim0 sEx rEx step_ex
  exact ⟨run_ex, step_ex, H.1.1, H.1.2.1, H.1.2.2⟩

/-- C3: after any successful run, including the seeded initial entries,
every stock history entry is non-negative and every price history entry is
at least the price floor 100. -/
theorem run_histories_clamped (rs : List (ℚ × ℚ)) (s' : SimState)
    (h : run sim0 rs = some s') :
    (∀ x ∈ s'.env.stock_history, (0:ℤ) ≤ x) ∧
    (∀ q ∈ s'.env.price_history, (100:ℚ) ≤ q) :=
  ⟨(run_some_inv rs sim0 s' inv_sim0 h).sh_nonneg,
   (run_some_inv rs sim0 s' inv_sim0 h).ph_floor⟩

/-- C3 witness: the clamping bounds applied to the seeded entries of the
histories of the concrete one-step run. -/
theorem run_histories_clamped_witness :
    run sim0 [rEx] = some sEx ∧ (0:ℤ) ≤ 50 ∧ (100:ℚ) ≤ 600 := by
  refine ⟨run_ex, ?_, ?_⟩
  · exact (run_histories_clamped [rEx] sEx run_ex).1 50 (by simp [sEx])
  · exact (run_histories_clamped [rEx] sEx run_ex).2 600 (by simp [sEx])

/-- C9 counterexample: a run with step count zero, a non-positive step
count, completes normally and returns the state unchanged instead of
raising any configuration error: the code performs no validation at
construction or before the loop. -/
theorem run_zero_steps_cex : run sim0 [] = some sim0 := rfl

/-- C9 amended: the code rejects no configuration: there is no
configuration validation anywhere, and a run with a non-positive step
count simply executes zero loop iterations and returns its state
unchanged without error. -/
theorem run_zero_steps_no_error (s : SimState) : run s [] = some s := rfl

/-- C10: throughout every successful run the agent's average price stays
at or above the price floor 100, hence is never zero, so the divisions by
the average in the discount-ratio and discount-threshold computations are
well defined. -/
theorem run_average_price_floor (rs : List (ℚ × ℚ)) (s' : SimState)
    (h : run sim0 rs = some s') :
    (100:ℚ) ≤ s'.agent.average_price ∧ s'.agent.average_price ≠ 0 := by
  have hi := run_some_inv rs sim0 s' inv_sim0 h
  refine ⟨hi.avg_floor, ?_⟩
  have hfloor := hi.avg_floor
  intro h0
  rw [h0] at hfloor
  norm_num at hfloor

/-- C10 witness: the average-price floor evaluated on the concrete
one-step run reaching sEx. -/
theorem run_average_price_floor_witness :
    run sim0 [rEx] = some sEx ∧
    (100:ℚ) ≤ sEx.agent.average_price ∧ sEx.agent.average_price ≠ 0 := by
  have H := run_average_price_floor [rEx] sEx run_ex
  exact ⟨run_ex, H.1, H.2⟩

end LabAgent
